import Mathlib

/-!
Shallow embedding of `blcch.py`, an educational blockchain implementation
(canonical JSON hashing of block fields, proof-of-work mining with the fixed
difficulty target `"00"`, and an O(n) chain validator), together with proofs
of the specification's claims about it.

Modelling decisions:
* SHA-256 is treated as a black-box primitive (as the spec prescribes): every
  definition is parametrised by a hash function `H : String → String` applied
  to the canonical JSON encoding produced by `json.dumps(..., sort_keys=True)`.
* `timestamp` is modelled as the string `str(self.timestamp)` — the only form
  in which the code ever consumes it; transactions are strings, as in the
  repository's tests.
* The unbounded `while` loop of `mine_block` is modelled with explicit fuel;
  `none` stands for not finding a nonce within the fuel.
* Python's `IndexError` (reading `self.chain[0]` or `self.chain[-1]` on an
  empty list) is modelled by `Except.error ()` / `none`.
-/

/-- One lowercase hexadecimal digit, as produced by Python's `\uXXXX` escapes. -/
def hexDigit (n : Nat) : Char :=
  if n < 10 then Char.ofNat (48 + n) else Char.ofNat (87 + n)

/-- Four lowercase hexadecimal digits for a code point below `0x10000`. -/
def toHex4 (n : Nat) : String :=
  String.mk [hexDigit (n / 4096 % 16), hexDigit (n / 256 % 16),
             hexDigit (n / 16 % 16), hexDigit (n % 16)]

/-- How Python's `json.dumps` (with its default `ensure_ascii=True`) escapes a
single character inside a JSON string literal: `\"`, `\\`, the short escapes
`\n` `\r` `\t` `\b` `\f`, `\uXXXX` for every other character outside
`0x20`–`0x7e`, surrogate pairs beyond the BMP, and the character itself
otherwise. -/
def escChar (c : Char) : String :=
  if c = '"' then "\\\""
  else if c = '\\' then "\\\\"
  else if c = '\n' then "\\n"
  else if c = '\r' then "\\r"
  else if c = '\t' then "\\t"
  else if c.toNat = 8 then "\\b"
  else if c.toNat = 12 then "\\f"
  else if c.toNat < 32 || 126 < c.toNat then
    if c.toNat < 65536 then "\\u" ++ toHex4 c.toNat
    else
      "\\u" ++ toHex4 (55296 + (c.toNat - 65536) / 1024) ++
      "\\u" ++ toHex4 (56320 + (c.toNat - 65536) % 1024)
  else String.mk [c]

/-- A JSON string literal: quote, escaped characters, quote. -/
def jsonStr (s : String) : String :=
  "\"" ++ String.join (s.data.map escChar) ++ "\""

/-- Join with a separator, as `json.dumps`'s default item separator does. -/
def joinSep (sep : String) : List String → String
  | [] => ""
  | [x] => x
  | x :: y :: rest => x ++ sep ++ joinSep sep (y :: rest)

/-- A JSON array of string literals, `json.dumps`-style (`", "` separator). -/
def jsonList (xs : List String) : String :=
  "[" ++ joinSep ", " (xs.map jsonStr) ++ "]"

/-- Python's `str.startswith`: the candidate's characters form a prefix. -/
def strStartsWith (s pat : String) : Bool :=
  pat.data.isPrefixOf s.data

/-- The canonical encoding built by `Block.calculate_hash` (src/blcch.py,
lines 44–53): `json.dumps({...}, sort_keys=True)` of the five logical fields.
`sort_keys=True` orders the keys alphabetically:
`index`, `nonce`, `previous_hash`, `timestamp`, `transactions`; the default
separators are `", "` and `": "`. -/
def encodeBlock (index : Nat) (timestamp : String) (transactions : List String)
    (previous_hash : String) (nonce : Nat) : String :=
  "\x7b\"index\": " ++ Nat.repr index ++
  ", \"nonce\": " ++ Nat.repr nonce ++
  ", \"previous_hash\": " ++ jsonStr previous_hash ++
  ", \"timestamp\": " ++ jsonStr timestamp ++
  ", \"transactions\": " ++ jsonList transactions ++ "\x7d"

/-- A sealed block: the five logical fields plus the stored hash
(src/blcch.py, lines 24–39). -/
structure Block where
  index : Nat
  timestamp : String
  transactions : List String
  previous_hash : String
  nonce : Nat
  hash : String
deriving DecidableEq

/-- The canonical encoding of a block's five logical fields. -/
def encB (b : Block) : String :=
  encodeBlock b.index b.timestamp b.transactions b.previous_hash b.nonce

/-- `Block.calculate_hash` (src/blcch.py, lines 44–53): hash of the canonical
encoding of the block's current fields. -/
def calculate_hash (H : String → String) (b : Block) : String :=
  H (encB b)

/-- `Block.mine_block` (src/blcch.py, lines 55–71): starting from the given
nonce, hash the encoding and, while the digest does not start with the target
`"00"`, increment the nonce and retry.  The loop is unbounded in the source;
`fuel` bounds it here and `none` means the bound was hit first. -/
def mine_block (H : String → String) (index : Nat) (timestamp : String)
    (transactions : List String) (previous_hash : String) :
    Nat → Nat → Option (Nat × String)
  | _, 0 => none
  | nonce, fuel + 1 =>
    if strStartsWith (H (encodeBlock index timestamp transactions previous_hash nonce)) "00" then
      some (nonce, H (encodeBlock index timestamp transactions previous_hash nonce))
    else mine_block H index timestamp transactions previous_hash (nonce + 1) fuel


/-- `Block.__init__` (src/blcch.py, lines 24–39): store the fields (the
transactions as a defensive copy, value-equal to the argument), set
`nonce = 0`, and mine; the stored hash is the mining result. -/
def mkBlock (H : String → String) (index : Nat) (timestamp : String)
    (transactions : List String) (previous_hash : String) (fuel : Nat) :
    Option Block :=
  match mine_block H index timestamp transactions previous_hash 0 fuel with
  | none => none
  | some (n, h) => some ⟨index, timestamp, transactions, previous_hash, n, h⟩

/-- The `Blockchain` state (src/blcch.py, lines 83–95): the block list and the
pending transaction pool. -/
structure Blockchain where
  chain : List Block
  pending_transactions : List String
deriving DecidableEq

/-- `Blockchain.__init__` (src/blcch.py, lines 83–95): a singleton chain
holding the genesis block `Block(0, now, [], "0")` and an empty pool.  The
wall-clock timestamp is a parameter. -/
def init_blockchain (H : String → String) (ts : String) (fuel : Nat) :
    Option Blockchain :=
  match mkBlock H 0 ts [] "0" fuel with
  | none => none
  | some g => some ⟨[g], []⟩

/-- `Blockchain.add_transaction` (src/blcch.py, lines 100–107): append to the
pending pool. -/
def add_transaction (bc : Blockchain) (tx : String) : Blockchain :=
  ⟨bc.chain, bc.pending_transactions ++ [tx]⟩

/-- The last element of the nonempty list `first :: rest`, modelling Python's
`chain[-1]`. -/
def lastB (first : Block) : List Block → Block
  | [] => first
  | c :: rest => lastB c rest

/-- `Blockchain.mine_pending_transactions` (src/blcch.py, lines 112–133):
empty pool ⟹ return `False` with the state untouched; otherwise build
`Block(len(chain), now, pending, chain[-1].hash)`, append it, clear the pool
and return `True`.  `none` models a raised `IndexError` (empty chain) or
mining that did not finish within the fuel. -/
def mine_pending_transactions (H : String → String) (ts : String)
    (bc : Blockchain) (fuel : Nat) : Option (Bool × Blockchain) :=
  if bc.pending_transactions.isEmpty then some (false, bc)
  else
    match bc.chain with
    | [] => none
    | c :: rest =>
      match mkBlock H bc.chain.length ts bc.pending_transactions
          (lastB c rest).hash fuel with
      | none => none
      | some b => some (true, ⟨bc.chain ++ [b], []⟩)

/-- The genesis checks of `Blockchain.validate_chain` (src/blcch.py, lines
151–157): index 0, previous hash `"0"`, stored hash equal to the recomputed
hash, and the proof-of-work target. -/
def checkGenesis (H : String → String) (g : Block) : Bool :=
  (g.index == 0) && (g.previous_hash == "0") &&
  (g.hash == calculate_hash H g) && strStartsWith g.hash "00"

/-- The per-block checks of the validation loop (src/blcch.py, lines 160–174):
recomputed hash, linkage to the predecessor's stored hash, proof-of-work. -/
def checkBlock (H : String → String) (previous current : Block) : Bool :=
  (current.hash == calculate_hash H current) &&
  (current.previous_hash == previous.hash) &&
  strStartsWith current.hash "00"

/-- The validation loop over the non-genesis blocks, threading the
predecessor. -/
def validateFrom (H : String → String) : Block → List Block → Bool
  | _, [] => true
  | prev, cur :: rest => checkBlock H prev cur && validateFrom H cur rest

/-- `Blockchain.validate_chain` (src/blcch.py, lines 138–176).  On an empty
chain the source raises `IndexError` at `self.chain[0]`, modelled by
`Except.error ()`; otherwise the boolean verdict of the genesis checks and
the loop. -/
def validate_chain (H : String → String) (bc : Blockchain) : Except Unit Bool :=
  match bc.chain with
  | [] => Except.error ()
  | g :: rest => Except.ok (checkGenesis H g && validateFrom H g rest)

/-- States reachable through the documented construction path: initialisation
(genesis mined), `add_transaction`, and `mine_pending_transactions` calls that
return (mining finished within some fuel). -/
inductive Reachable (H : String → String) : Blockchain → Prop where
  | init (ts : String) (fuel : Nat) (bc : Blockchain) :
      init_blockchain H ts fuel = some bc → Reachable H bc
  | addTx (bc : Blockchain) (tx : String) :
      Reachable H bc → Reachable H (add_transaction bc tx)
  | mine (bc : Blockchain) (ts : String) (fuel : Nat) (r : Bool)
      (bc2 : Blockchain) :
      Reachable H bc → mine_pending_transactions H ts bc fuel = some (r, bc2) →
      Reachable H bc2

/-- The invariant the construction path maintains: the chain is a nonempty
list whose head passes the genesis checks and whose tail passes the
validation loop. -/
def ChainInv (H : String → String) (bc : Blockchain) : Prop :=
  ∃ g rest, bc.chain = g :: rest ∧ checkGenesis H g = true ∧
    validateFrom H g rest = true

/-- Stored indices count up from `k` along the list. -/
def indicesOk : Nat → List Block → Bool
  | _, [] => true
  | k, b :: rest => (b.index == k) && indicesOk (k + 1) rest

/-- Overwriting a single one of the four mutable fields of a sealed block
(the tampering events of the spec's test scenario). -/
inductive FieldMut where
  | setTransactions (v : List String)
  | setNonce (v : Nat)
  | setPreviousHash (v : String)
  | setTimestamp (v : String)
deriving DecidableEq

/-- Apply a single-field overwrite, leaving the other fields (in particular
the stored hash) untouched. -/
def applyMut : FieldMut → Block → Block
  | .setTransactions v, b => { b with transactions := v }
  | .setNonce v, b => { b with nonce := v }
  | .setPreviousHash v, b => { b with previous_hash := v }
  | .setTimestamp v, b => { b with timestamp := v }

/-- The encoder exactly as the spec words it, with the keys in the order the
spec asserts (`index`, `previous_hash`, `timestamp`, `transactions`,
`nonce`) and the same per-field formatting; written from the spec's words
for comparison with `encodeBlock`. -/
def encodeBlockSpecOrder (index : Nat) (timestamp : String)
    (transactions : List String) (previous_hash : String) (nonce : Nat) :
    String :=
  "\x7b\"index\": " ++ Nat.repr index ++
  ", \"previous_hash\": " ++ jsonStr previous_hash ++
  ", \"timestamp\": " ++ jsonStr timestamp ++
  ", \"transactions\": " ++ jsonList transactions ++
  ", \"nonce\": " ++ Nat.repr nonce ++ "\x7d"

/-- The encoder with the keys in true alphabetical order (`index`, `nonce`,
`previous_hash`, `timestamp`, `transactions`), the amended wording; written
from the amended spec words for comparison with `encodeBlock`. -/
def encodeBlockAlphabetical (index : Nat) (timestamp : String)
    (transactions : List String) (previous_hash : String) (nonce : Nat) :
    String :=
  "\x7b\"index\": " ++ Nat.repr index ++
  ", \"nonce\": " ++ Nat.repr nonce ++
  ", \"previous_hash\": " ++ jsonStr previous_hash ++
  ", \"timestamp\": " ++ jsonStr timestamp ++
  ", \"transactions\": " ++ jsonList transactions ++ "\x7d"

/-- A concrete stand-in for the black-box hash, used to run the parametric
theorems on executable inputs: it prepends the difficulty target, so every
digest trivially satisfies it and mining succeeds at nonce 0. -/
def padHash (s : String) : String := "00" ++ s

/-- The genesis block that `Blockchain.__init__` builds under `padHash` with
timestamp `""`. -/
def wGenesis : Block :=
  ⟨0, "", [], "0", 0, padHash (encodeBlock 0 "" [] "0" 0)⟩

/-- The block mined from the pool `["a"]` on top of `wGenesis` under
`padHash`. -/
def wBlock1 : Block :=
  ⟨1, "", ["a"], wGenesis.hash, 0, padHash (encodeBlock 1 "" ["a"] wGenesis.hash 0)⟩

/-- A concrete two-block chain used to exercise the theorems. -/
def wChain : List Block := [wGenesis, wBlock1]

/-- Soundness of the mining loop: a returned pair consists of the digest of
the returned nonce, the digest meets the target, the nonce is at least the
starting one, and every nonce between the start and the returned one fails
the target. -/
theorem mine_block_sound (H : String → String) (i : Nat) (t : String)
    (x : List String) (p : String) :
    ∀ (fuel s n : Nat) (h : String),
      mine_block H i t x p s fuel = some (n, h) →
      h = H (encodeBlock i t x p n) ∧
      strStartsWith h "00" = true ∧ s ≤ n ∧
      ∀ m, s ≤ m → m < n → strStartsWith (H (encodeBlock i t x p m)) "00" = false := by
  intro fuel
  induction fuel with
  | zero => intro s n h heq; simp [mine_block] at heq
  | succ f ih =>
    intro s n h heq
    rw [mine_block] at heq
    by_cases hc : strStartsWith (H (encodeBlock i t x p s)) "00" = true
    · rw [if_pos hc] at heq
      obtain ⟨hn, hh⟩ : s = n ∧ H (encodeBlock i t x p s) = h := by
        have := Option.some.inj heq
        exact ⟨congrArg Prod.fst this, congrArg Prod.snd this⟩
      subst hn
      refine ⟨hh.symm, hh ▸ hc, le_refl s, ?_⟩
      intro m hm1 hm2; omega
    · rw [if_neg hc] at heq
      obtain ⟨hh, hs, hle, hmin⟩ := ih (s + 1) n h heq
      refine ⟨hh, hs, by omega, ?_⟩
      intro m hm1 hm2
      rcases Nat.eq_or_lt_of_le hm1 with hms | hms
      · subst hms
        exact Bool.eq_false_iff.mpr hc
      · exact hmin m hms hm2

/-- Completeness of the mining loop: if the nonce `s + k` meets the target and
none of the `k` nonces before it (counting from `s`) does, then `k + 1` loop
iterations starting at `s` return exactly that nonce and its digest. -/
theorem mine_block_complete (H : String → String) (i : Nat) (t : String)
    (x : List String) (p : String) :
    ∀ (k s : Nat),
      strStartsWith (H (encodeBlock i t x p (s + k))) "00" = true →
      (∀ j, j < k → strStartsWith (H (encodeBlock i t x p (s + j))) "00" = false) →
      mine_block H i t x p s (k + 1) =
        some (s + k, H (encodeBlock i t x p (s + k))) := by
  intro k
  induction k with
  | zero =>
    intro s hs _
    simp only [Nat.add_zero] at hs ⊢
    rw [mine_block, if_pos hs]
  | succ k ih =>
    intro s hs hmin
    have h0 : strStartsWith (H (encodeBlock i t x p s)) "00" = false := by
      have := hmin 0 (Nat.succ_pos k)
      simpa using this
    rw [mine_block, if_neg (by simp [h0])]
    have hs2 : strStartsWith (H (encodeBlock i t x p (s + 1 + k))) "00" = true := by
      have : s + 1 + k = s + (k + 1) := by omega
      rw [this]; exact hs
    have hmin2 : ∀ j, j < k →
        strStartsWith (H (encodeBlock i t x p (s + 1 + j))) "00" = false := by
      intro j hj
      have : s + 1 + j = s + (j + 1) := by omega
      rw [this]; exact hmin (j + 1) (by omega)
    have := ih (s + 1) hs2 hmin2
    rw [this]
    have : s + 1 + k = s + (k + 1) := by omega
    rw [this]

/-- Inversion of `Block.__init__`: a constructed block carries the given
fields, and its nonce and stored hash are exactly what the mining loop
returned. -/
theorem mkBlock_inv (H : String → String) (i : Nat) (t : String)
    (x : List String) (p : String) (fuel : Nat) (b : Block)
    (hb : mkBlock H i t x p fuel = some b) :
    mine_block H i t x p 0 fuel = some (b.nonce, b.hash) ∧
    b.index = i ∧ b.timestamp = t ∧ b.transactions = x ∧ b.previous_hash = p := by
  unfold mkBlock at hb
  cases hm : mine_block H i t x p 0 fuel with
  | none => rw [hm] at hb; simp at hb
  | some nh =>
    rw [hm] at hb
    obtain ⟨n, h⟩ := nh
    simp at hb
    subst hb
    exact ⟨rfl, rfl, rfl, rfl, rfl⟩

/-- A constructed block's stored hash is the digest of its own canonical
encoding and meets the target. -/
theorem mkBlock_sound (H : String → String) (i : Nat) (t : String)
    (x : List String) (p : String) (fuel : Nat) (b : Block)
    (hb : mkBlock H i t x p fuel = some b) :
    b.hash = calculate_hash H b ∧ strStartsWith b.hash "00" = true := by
  obtain ⟨hm, hi, ht, hx, hp⟩ := mkBlock_inv H i t x p fuel b hb
  obtain ⟨hh, hs, _, _⟩ := mine_block_sound H i t x p fuel 0 b.nonce b.hash hm
  refine ⟨?_, hs⟩
  rw [hh, calculate_hash, encB, hi, ht, hx, hp]

/-- C5: every Block produced by construction (`Block.__init__`, which invokes
mining) satisfies the Block invariant: its stored hash equals the hash of the
canonical encoding of its index, timestamp, transactions, previous_hash and
nonce, and that hash starts with the difficulty target `"00"`. -/
theorem constructed_block_invariant (H : String → String) (i : Nat)
    (t : String) (x : List String) (p : String) (fuel : Nat) (b : Block)
    (hb : mkBlock H i t x p fuel = some b) :
    b.hash = H (encB b) ∧ strStartsWith b.hash "00" = true :=
  mkBlock_sound H i t x p fuel b hb

/-- Witness for C5: under `padHash` one unit of fuel constructs the genesis
block, whose stored hash is the digest of its own encoding and meets the
target. -/
theorem constructed_block_invariant_witness :
    wGenesis.hash = padHash (encB wGenesis) ∧
    strStartsWith wGenesis.hash "00" = true :=
  constructed_block_invariant padHash 0 "" [] "0" 1 wGenesis rfl

/-- C6: for every input for which some nonce's digest starts with `"00"`, the
mining loop terminates (within some fuel) and returns the least such nonce
together with its digest. -/
theorem mining_terminates_least (H : String → String) (i : Nat) (t : String)
    (x : List String) (p : String)
    (hex : ∃ n, strStartsWith (H (encodeBlock i t x p n)) "00" = true) :
    ∃ fuel n,
      mine_block H i t x p 0 fuel = some (n, H (encodeBlock i t x p n)) ∧
      strStartsWith (H (encodeBlock i t x p n)) "00" = true ∧
      ∀ m, m < n → strStartsWith (H (encodeBlock i t x p m)) "00" = false := by
  have hc := mine_block_complete H i t x p (Nat.find hex) 0
    (by simpa using Nat.find_spec hex)
    (by intro j hj; simpa using Nat.find_min hex hj)
  refine ⟨Nat.find hex + 1, Nat.find hex, by simpa using hc,
    Nat.find_spec hex, ?_⟩
  intro m hm
  simpa using Nat.find_min hex hm

/-- Witness for C6: under `padHash` every digest meets the target, and mining
from nonce 0 indeed succeeds. -/
theorem mining_terminates_least_witness :
    ∃ fuel n,
      mine_block padHash 0 "" [] "0" 0 fuel =
        some (n, padHash (encodeBlock 0 "" [] "0" n)) ∧
      strStartsWith (padHash (encodeBlock 0 "" [] "0" n)) "00" = true ∧
      ∀ m, m < n →
        strStartsWith (padHash (encodeBlock 0 "" [] "0" m)) "00" = false :=
  mining_terminates_least padHash 0 "" [] "0" ⟨0, rfl⟩

/-- C9: mining is deterministic — two runs of Block construction on identical
inputs (here: with possibly different fuel bounds, both returning) produce
the same nonce and the same hash. -/
theorem mining_deterministic (H : String → String) (i : Nat) (t : String)
    (x : List String) (p : String) (f1 f2 : Nat) (b1 b2 : Block)
    (h1 : mkBlock H i t x p f1 = some b1)
    (h2 : mkBlock H i t x p f2 = some b2) :
    b1.nonce = b2.nonce ∧ b1.hash = b2.hash := by
  obtain ⟨hm1, -, -, -, -⟩ := mkBlock_inv H i t x p f1 b1 h1
  obtain ⟨hm2, -, -, -, -⟩ := mkBlock_inv H i t x p f2 b2 h2
  obtain ⟨hh1, hs1, -, hmin1⟩ := mine_block_sound H i t x p f1 0 b1.nonce b1.hash hm1
  obtain ⟨hh2, hs2, -, hmin2⟩ := mine_block_sound H i t x p f2 0 b2.nonce b2.hash hm2
  have hn : b1.nonce = b2.nonce := by
    rcases Nat.lt_trichotomy b1.nonce b2.nonce with hlt | heq | hgt
    · have hf := hmin2 b1.nonce (Nat.zero_le _) hlt
      rw [← hh1] at hf
      simp [hs1] at hf
    · exact heq
    · have hf := hmin1 b2.nonce (Nat.zero_le _) hgt
      rw [← hh2] at hf
      simp [hs2] at hf
  exact ⟨hn, by rw [hh1, hh2, hn]⟩

/-- Witness for C9: two constructions with different fuel bounds yield the
same nonce and hash. -/
theorem mining_deterministic_witness :
    wGenesis.nonce = wGenesis.nonce ∧ wGenesis.hash = wGenesis.hash :=
  mining_deterministic padHash 0 "" [] "0" 1 2 wGenesis wGenesis rfl rfl

/-- C7: on an empty pending pool, `mine_pending_transactions` returns `False`
and hands back the very same state — same chain (hence same length and same
blocks) and same pool. -/
theorem mine_empty_pool (H : String → String) (ts : String) (bc : Blockchain)
    (fuel : Nat) (hp : bc.pending_transactions = []) :
    mine_pending_transactions H ts bc fuel = some (false, bc) := by
  unfold mine_pending_transactions
  rw [hp]
  rfl

/-- Witness for C7: the freshly initialised state has an empty pool, and
mining returns `False` leaving it unchanged. -/
theorem mine_empty_pool_witness :
    mine_pending_transactions padHash "" ⟨[wGenesis], []⟩ 1 =
      some (false, ⟨[wGenesis], []⟩) :=
  mine_empty_pool padHash "" ⟨[wGenesis], []⟩ 1 rfl

/-- C8: on a non-empty pool (with the chain non-empty and mining returning
within the fuel, as on every run that returns), `mine_pending_transactions`
returns `True`, appends exactly one block — whose index is the pre-call chain
length, whose previous_hash is the pre-call last block's stored hash, and
whose stored transactions equal the pre-call pool contents (stored as a
defensive copy in the source) — clears the pool, and leaves every prior
block unchanged. -/
theorem mine_nonempty_pool (H : String → String) (ts : String)
    (bc : Blockchain) (fuel : Nat) (c : Block) (rest : List Block) (b : Block)
    (hp : bc.pending_transactions ≠ [])
    (hc : bc.chain = c :: rest)
    (hm : mkBlock H bc.chain.length ts bc.pending_transactions
      (lastB c rest).hash fuel = some b) :
    mine_pending_transactions H ts bc fuel =
      some (true, ⟨bc.chain ++ [b], []⟩) ∧
    b.index = bc.chain.length ∧
    b.previous_hash = (lastB c rest).hash ∧
    b.transactions = bc.pending_transactions := by
  obtain ⟨-, hbi, -, hbx, hbp⟩ := mkBlock_inv H bc.chain.length ts
    bc.pending_transactions (lastB c rest).hash fuel b hm
  have hie : bc.pending_transactions.isEmpty = false := by
    cases h2 : bc.pending_transactions with
    | nil => exact absurd h2 hp
    | cons a l => rfl
  refine ⟨?_, hbi, hbp, hbx⟩
  unfold mine_pending_transactions
  rw [hie]
  simp only [Bool.false_eq_true, if_false]
  rw [hc] at hm ⊢
  rw [← hc] at hm ⊢
  rw [hc]
  simp only [← hc, hm]

set_option maxRecDepth 8000 in
/-- Witness for C8: mining the pool `["a"]` on top of the genesis chain
appends exactly `wBlock1` and clears the pool. -/
theorem mine_nonempty_pool_witness :
    mine_pending_transactions padHash "" ⟨[wGenesis], ["a"]⟩ 1 =
      some (true, ⟨[wGenesis] ++ [wBlock1], []⟩) ∧
    wBlock1.index = ([wGenesis] : List Block).length ∧
    wBlock1.previous_hash = (lastB wGenesis []).hash ∧
    wBlock1.transactions = ["a"] :=
  mine_nonempty_pool padHash "" ⟨[wGenesis], ["a"]⟩ 1 wGenesis [] wBlock1
    (by simp) rfl rfl

/-- Appending a block that passes the per-block checks against the current
last block preserves the validation loop's success. -/
theorem validateFrom_append (H : String → String) (l : List Block) :
    ∀ (g b : Block), validateFrom H g l = true →
      checkBlock H (lastB g l) b = true →
      validateFrom H g (l ++ [b]) = true := by
  induction l with
  | nil =>
    intro g b _ hcb
    simp [validateFrom, lastB] at *
    exact hcb
  | cons c t ih =>
    intro g b hv hcb
    simp only [validateFrom, Bool.and_eq_true] at hv
    simp only [List.cons_append, validateFrom, Bool.and_eq_true]
    exact ⟨hv.1, ih c b hv.2 hcb⟩

/-- Every state reachable through the documented construction path satisfies
the chain invariant checked by the validator. -/
theorem reachable_chainInv (H : String → String) (bc : Blockchain)
    (h : Reachable H bc) : ChainInv H bc := by
  induction h with
  | init ts fuel bc0 hinit =>
    unfold init_blockchain at hinit
    cases hg : mkBlock H 0 ts [] "0" fuel with
    | none => rw [hg] at hinit; simp at hinit
    | some g =>
      rw [hg] at hinit
      simp at hinit
      obtain ⟨-, hgi, -, -, hgp⟩ := mkBlock_inv H 0 ts [] "0" fuel g hg
      obtain ⟨hgh, hgs⟩ := mkBlock_sound H 0 ts [] "0" fuel g hg
      refine ⟨g, [], by rw [← hinit], ?_, rfl⟩
      simp [checkGenesis, hgi, hgp, ← hgh, hgs]
  | addTx bc0 tx hr ih =>
    obtain ⟨g, rest, hc, hg, hv⟩ := ih
    exact ⟨g, rest, hc, hg, hv⟩
  | mine bc0 ts fuel r bc2 hr hm ih =>
    obtain ⟨g, rest, hc, hg, hv⟩ := ih
    unfold mine_pending_transactions at hm
    by_cases hpe : bc0.pending_transactions.isEmpty
    · rw [if_pos hpe] at hm
      simp at hm
      obtain ⟨-, hbc⟩ := hm
      exact ⟨g, rest, hbc ▸ hc, hg, hv⟩
    · rw [if_neg hpe] at hm
      rw [hc] at hm
      dsimp only at hm
      cases hb : mkBlock H (g :: rest).length ts bc0.pending_transactions
          (lastB g rest).hash fuel with
      | none => rw [hb] at hm; simp at hm
      | some b =>
        rw [hb] at hm
        simp at hm
        obtain ⟨-, hbc⟩ := hm
        obtain ⟨-, -, -, -, hbp⟩ := mkBlock_inv H (g :: rest).length ts
          bc0.pending_transactions (lastB g rest).hash fuel b hb
        obtain ⟨hbh, hbs⟩ := mkBlock_sound H (g :: rest).length ts
          bc0.pending_transactions (lastB g rest).hash fuel b hb
        have hcb : checkBlock H (lastB g rest) b = true := by
          simp only [checkBlock, Bool.and_eq_true, beq_iff_eq]
          exact ⟨⟨hbh, hbp⟩, hbs⟩
        refine ⟨g, rest ++ [b], ?_, hg, validateFrom_append H rest g b hv hcb⟩
        rw [← hbc]

/-- C1: every chain produced solely through the documented construction path
(genesis at initialisation, then any finite sequence of `add_transaction` and
returning `mine_pending_transactions` calls) validates: `validate_chain`
returns `True`. -/
theorem reachable_validates (H : String → String) (bc : Blockchain)
    (h : Reachable H bc) : validate_chain H bc = Except.ok true := by
  obtain ⟨g, rest, hc, hg, hv⟩ := reachable_chainInv H bc h
  unfold validate_chain
  rw [hc]
  dsimp only
  rw [hg, hv]
  rfl

/-- Witness for C1: the freshly initialised singleton chain validates. -/
theorem reachable_validates_witness :
    validate_chain padHash ⟨[wGenesis], []⟩ = Except.ok true :=
  reachable_validates padHash ⟨[wGenesis], []⟩ (Reachable.init "" 1 _ rfl)

/-- Appending a block whose stored index is the current length preserves
consecutive indices. -/
theorem indicesOk_append (l : List Block) :
    ∀ (k : Nat) (b : Block), indicesOk k l = true → b.index = k + l.length →
      indicesOk k (l ++ [b]) = true := by
  induction l with
  | nil =>
    intro k b _ hb
    simp [indicesOk, hb]
  | cons c t ih =>
    intro k b hok hb
    simp only [indicesOk, Bool.and_eq_true] at hok
    simp only [List.cons_append, indicesOk, Bool.and_eq_true]
    refine ⟨hok.1, ih (k + 1) b hok.2 ?_⟩
    simp [hb, List.length_cons]
    omega

/-- Consecutive indices, read back positionally. -/
theorem indicesOk_get (l : List Block) :
    ∀ (k : Nat), indicesOk k l = true →
      ∀ (i : Nat) (hi : i < l.length), (l.get ⟨i, hi⟩).index = k + i := by
  induction l with
  | nil => intro k _ i hi; simp at hi
  | cons c t ih =>
    intro k hok i hi
    simp only [indicesOk, Bool.and_eq_true, beq_iff_eq] at hok
    cases i with
    | zero => simpa using hok.1
    | succ j =>
      have := ih (k + 1) hok.2 j (by simpa using hi)
      simp only [List.get] at this ⊢
      omega

/-- Every reachable state has a non-empty chain with consecutive stored
indices starting at 0. -/
theorem reachable_indicesOk (H : String → String) (bc : Blockchain)
    (h : Reachable H bc) : bc.chain ≠ [] ∧ indicesOk 0 bc.chain = true := by
  induction h with
  | init ts fuel bc0 hinit =>
    unfold init_blockchain at hinit
    cases hg : mkBlock H 0 ts [] "0" fuel with
    | none => rw [hg] at hinit; simp at hinit
    | some g =>
      rw [hg] at hinit
      simp at hinit
      obtain ⟨-, hgi, -, -, -⟩ := mkBlock_inv H 0 ts [] "0" fuel g hg
      rw [← hinit]
      exact ⟨by simp, by simp [indicesOk, hgi]⟩
  | addTx bc0 tx hr ih => exact ih
  | mine bc0 ts fuel r bc2 hr hm ih =>
    obtain ⟨hne, hok⟩ := ih
    unfold mine_pending_transactions at hm
    by_cases hpe : bc0.pending_transactions.isEmpty
    · rw [if_pos hpe] at hm
      simp at hm
      rw [← hm.2]
      exact ⟨hne, hok⟩
    · rw [if_neg hpe] at hm
      cases hcc : bc0.chain with
      | nil => exact absurd hcc hne
      | cons c rest =>
        rw [hcc] at hm
        dsimp only at hm
        cases hb : mkBlock H (c :: rest).length ts bc0.pending_transactions
            (lastB c rest).hash fuel with
        | none => rw [hb] at hm; simp at hm
        | some b =>
          rw [hb] at hm
          simp at hm
          obtain ⟨-, hbi, -, -, -⟩ := mkBlock_inv H (c :: rest).length ts
            bc0.pending_transactions (lastB c rest).hash fuel b hb
          obtain ⟨-, hbc⟩ := hm
          rw [← hbc]
          constructor
          · simp
          · rw [hcc] at hok
            exact indicesOk_append (c :: rest) 0 b hok (by simpa using hbi)

/-- C10: in every state reachable from initialisation via `add_transaction`
and `mine_pending_transactions`, the chain is non-empty and the stored index
of the block at each position `i` equals `i` (genesis at index 0, each mined
block stamped with the chain length at its mining). -/
theorem reachable_chain_indices (H : String → String) (bc : Blockchain)
    (h : Reachable H bc) :
    bc.chain ≠ [] ∧
    ∀ (i : Nat) (hi : i < bc.chain.length), (bc.chain.get ⟨i, hi⟩).index = i := by
  obtain ⟨hne, hok⟩ := reachable_indicesOk H bc h
  refine ⟨hne, fun i hi => ?_⟩
  simpa using indicesOk_get bc.chain 0 hok i hi

/-- Witness for C10: in the freshly initialised state the chain is the
non-empty singleton and the block at position 0 has index 0. -/
theorem reachable_chain_indices_witness :
    (Blockchain.mk [wGenesis] []).chain ≠ [] ∧
    ((Blockchain.mk [wGenesis] []).chain.get ⟨0, by decide⟩).index = 0 :=
  ⟨(reachable_chain_indices padHash ⟨[wGenesis], []⟩ (Reachable.init "" 1 _ rfl)).1,
   (reachable_chain_indices padHash ⟨[wGenesis], []⟩
      (Reachable.init "" 1 _ rfl)).2 0 (by decide)⟩

/-- Overwriting a single non-hash field leaves the stored hash untouched. -/
theorem applyMut_hash (m : FieldMut) (b : Block) :
    (applyMut m b).hash = b.hash := by
  cases m <;> rfl

/-- Overwriting the block at position `j` of a list that passes the
validation loop with a block carrying the same stored hash but a different
digest of its encoding makes the loop fail. -/
theorem validateFrom_set_false (H : String → String) (l : List Block) :
    ∀ (prev : Block) (j : Nat) (hj : j < l.length) (b2 : Block),
      validateFrom H prev l = true →
      b2.hash = (l.get ⟨j, hj⟩).hash →
      H (encB b2) ≠ H (encB (l.get ⟨j, hj⟩)) →
      validateFrom H prev (l.set j b2) = false := by
  induction l with
  | nil => intro prev j hj; simp at hj
  | cons c t ih =>
    intro prev j hj b2 hv hh hne
    simp only [validateFrom, Bool.and_eq_true] at hv
    cases j with
    | zero =>
      have hch : c.hash = calculate_hash H c := by
        have h1 := hv.1
        simp only [checkBlock, Bool.and_eq_true, beq_iff_eq] at h1
        exact h1.1.1
      have hb2 : (b2.hash == calculate_hash H b2) = false := by
        rw [beq_eq_false_iff_ne]
        intro heq
        apply hne
        show calculate_hash H b2 = calculate_hash H ((c :: t).get ⟨0, hj⟩)
        rw [← heq, hh]
        exact hch
      show validateFrom H prev (b2 :: t) = false
      simp [validateFrom, checkBlock, hb2]
    | succ k =>
      show validateFrom H prev (c :: t.set k b2) = false
      simp only [validateFrom]
      have hk : k < t.length := by simpa using hj
      have := ih c k hk b2 hv.2 hh hne
      rw [this, hv.1]
      rfl

/-- C2: in a chain that validates, overwriting any single one of the fields
transactions, nonce, previous_hash or timestamp of any non-genesis block with
a different value, without re-mining, makes `validate_chain` return `False`
— under the hypothesis that the hash function does not collide on the two
distinct encodings involved. -/
theorem tamper_detected (H : String → String) (c : List Block)
    (p : List String) (i : Nat) (m : FieldMut) (hi : i < c.length)
    (h1 : 1 ≤ i)
    (hval : validate_chain H ⟨c, p⟩ = Except.ok true)
    (hdiff : applyMut m (c.get ⟨i, hi⟩) ≠ c.get ⟨i, hi⟩)
    (hcoll : H (encB (applyMut m (c.get ⟨i, hi⟩))) ≠ H (encB (c.get ⟨i, hi⟩))) :
    validate_chain H ⟨c.set i (applyMut m (c.get ⟨i, hi⟩)), p⟩ =
      Except.ok false := by
  cases c with
  | nil => simp at hi
  | cons g rest =>
    cases i with
    | zero => omega
    | succ k =>
      unfold validate_chain at hval ⊢
      dsimp only at hval ⊢
      simp only [Except.ok.injEq, Bool.and_eq_true] at hval
      have hk : k < rest.length := by simpa using hi
      have hfalse := validateFrom_set_false H rest g k hk
        (applyMut m ((g :: rest).get ⟨k + 1, hi⟩))
        hval.2
        (applyMut_hash m ((g :: rest).get ⟨k + 1, hi⟩))
        hcoll
      rw [List.set_cons_succ]
      dsimp only
      rw [hfalse, hval.1]
      rfl

set_option maxRecDepth 8000 in
/-- Witness for C2: the concrete two-block chain validates, and overwriting
the nonce of block 1 (without re-mining) makes validation return `False`. -/
theorem tamper_detected_witness :
    validate_chain padHash ⟨wChain, []⟩ = Except.ok true ∧
    validate_chain padHash
        ⟨wChain.set 1 (applyMut (FieldMut.setNonce 1) (wChain.get ⟨1, by decide⟩)), []⟩ =
      Except.ok false :=
  ⟨by rfl,
   tamper_detected padHash wChain [] 1 (FieldMut.setNonce 1) (by decide)
     (by decide) (by rfl) (by decide) (by decide)⟩

/-- C3 counterexample: on the empty chain, `validate_chain` does not report
an invalid chain — it raises `IndexError` reading `self.chain[0]`, modelled
as `Except.error ()`. -/
theorem validate_empty_counterexample :
    validate_chain padHash ⟨[], []⟩ = Except.error () ∧
    validate_chain padHash ⟨[], []⟩ ≠ Except.ok false :=
  ⟨rfl, fun h => Except.noConfusion h⟩

/-- C3 amended: invoked on a Blockchain state with no blocks,
`validate_chain` raises an uncaught `IndexError` at `self.chain[0]`
(modelled `Except.error ()`) instead of returning a boolean verdict; it
neither succeeds nor diverges. -/
theorem validate_empty_raises (H : String → String) (p : List String) :
    validate_chain H ⟨[], p⟩ = Except.error () := rfl

/-- C4 counterexample: the canonical encoder does not serialize the keys in
the order the spec claims (`index`, `previous_hash`, `timestamp`,
`transactions`, `nonce`): already on the genesis field values the two
serializations differ. -/
theorem encode_order_counterexample :
    encodeBlock 0 "" [] "0" 0 ≠ encodeBlockSpecOrder 0 "" [] "0" 0 := by
  decide

/-- C4 amended: the canonical encoder is a pure deterministic function of the
five fields and serializes the keys in the sorted order `index`, `nonce`,
`previous_hash`, `timestamp`, `transactions` (true alphabetical order), with
numeric fields as decimal text, the timestamp as its canonical string
representation, and transactions as their ordered textual representation. -/
theorem encode_alphabetical_order (index : Nat) (timestamp : String)
    (transactions : List String) (previous_hash : String) (nonce : Nat) :
    encodeBlock index timestamp transactions previous_hash nonce =
      encodeBlockAlphabetical index timestamp transactions previous_hash nonce :=
  rfl

/-- Witness for the amended C3 at a concrete state with a non-empty pool. -/
theorem validate_empty_raises_witness :
    validate_chain padHash ⟨[], ["x"]⟩ = Except.error () :=
  validate_empty_raises padHash ["x"]

/-- Witness for the amended C4 at concrete field values. -/
theorem encode_alphabetical_order_witness :
    encodeBlock 1 "t" ["a"] "p" 2 = encodeBlockAlphabetical 1 "t" ["a"] "p" 2 :=
  encode_alphabetical_order 1 "t" ["a"] "p" 2
